import Mathlib

/-!
Shallow embedding of the debuggo filter engine (debug.go).

Go strings are modelled as `List Char` (the inputs of interest are ASCII, so
byte- and rune-level views coincide); the Go maps `map[string]bool` — whose
lookup of a missing key yields `false` — are modelled as total functions
`List Char → Bool` built by pointwise update, exactly mirroring the writes
performed by the source.
-/

namespace Debuggo

/-- A Go string, modelled as its list of characters. -/
abbrev GoStr := List Char

/-- Embed a Lean string literal as a `GoStr`. -/
def gs (s : String) : GoStr := s.data

/-- The whitespace characters recognised by `strings.TrimSpace` on ASCII input. -/
def isSpaceChar (c : Char) : Bool :=
  c = ' ' || c = '\t' || c = '\n' || c = '\r'

/-- strings.TrimSpace: strip leading and trailing whitespace. -/
def trimSpace (s : GoStr) : GoStr :=
  ((s.dropWhile isSpaceChar).reverse.dropWhile isSpaceChar).reverse

/-- The parsed rule state: `debugNamespaces` and `negatedModules` are the two
`map[string]bool` package-level maps of debug.go, `wildcardEnabled` the bool. -/
structure RuleSet where
  debugNamespaces : GoStr → Bool
  negatedModules : GoStr → Bool
  wildcardEnabled : Bool

/-- A map write `m[k] = v` on a `map[string]bool`. -/
def setKey (m : GoStr → Bool) (k : GoStr) (v : Bool) : GoStr → Bool :=
  fun x => if x = k then v else m x

/-- The freshly reset state of `parseDebugEnv` (empty maps, wildcard off). -/
def emptyRules : RuleSet :=
  { debugNamespaces := fun _ => false
    negatedModules := fun _ => false
    wildcardEnabled := false }

/-- The body of the token loop of `parseDebugEnv` for one non-empty trimmed
token `ns`: negation bang (`strings.HasPrefix(ns, "!")` then `ns[1:]`),
global wildcard `*`, or a normal namespace. -/
def applyToken (rs : RuleSet) (ns : GoStr) : RuleSet :=
  if ns.take 1 = ['!'] then
    let trimmedNS := ns.drop 1
    { rs with
        negatedModules := setKey rs.negatedModules trimmedNS true
        debugNamespaces := setKey rs.debugNamespaces trimmedNS false }
  else if ns = ['*'] then
    { rs with wildcardEnabled := true }
  else
    { rs with debugNamespaces := setKey rs.debugNamespaces ns true }

/-- The loop of `parseDebugEnv` over the comma-separated tokens: trim each,
skip empties, otherwise process with `applyToken`. -/
def parseTokens (toks : List GoStr) (rs : RuleSet) : RuleSet :=
  toks.foldl
    (fun rs tok =>
      let ns := trimSpace tok
      if ns = [] then rs else applyToken rs ns)
    rs

/-- parseDebugEnv, as a pure function of the `DEBUG` environment value: reset
state, return at once on the empty value, else split on `,` and process each
token. -/
def parseDebugEnv (debugValue : GoStr) : RuleSet :=
  if debugValue = [] then emptyRules
  else parseTokens (debugValue.splitOn ',') emptyRules

/-- The colon-joined prefix `strings.Join(parts[:i], ":")` made of the first
`i` segments of `parts`. -/
def joinTake (parts : List GoStr) (i : Nat) : GoStr :=
  List.intercalate [':'] (parts.take i)

/-- isNegated: direct membership in `negatedModules`, or, for each prefix of
the colon-split segments (`for i := 1; i <= len(parts); i++`), membership of
the bare prefix, the prefix with `*` appended, or the prefix with `:*`
appended. -/
def isNegated (rs : RuleSet) (module : GoStr) : Bool :=
  rs.negatedModules module ||
    (List.range (module.splitOn ':').length).any fun i =>
      let pfx := joinTake (module.splitOn ':') (i + 1)
      rs.negatedModules pfx || rs.negatedModules (pfx ++ ['*']) ||
        rs.negatedModules (pfx ++ [':', '*'])

/-- isEnabledByWildcard: for each strict prefix of the colon-split segments
(`for i := 1; i < len(parts); i++`), look up the prefix with `:*` appended,
then the prefix with `*` appended, in `debugNamespaces`. -/
def isEnabledByWildcard (rs : RuleSet) (module : GoStr) : Bool :=
  ((List.range ((module.splitOn ':').length - 1)).any fun i =>
    let ns := joinTake (module.splitOn ':') (i + 1)
    rs.debugNamespaces (ns ++ [':', '*']) || rs.debugNamespaces (ns ++ ['*']))

/-- checkEnabled: negation first (immediate false), then the global wildcard,
then a direct `debugNamespaces` hit, then the wildcard-prefix search. -/
def checkEnabled (rs : RuleSet) (module : GoStr) : Bool :=
  if isNegated rs module then false
  else if rs.wildcardEnabled then true
  else if rs.debugNamespaces module then true
  else isEnabledByWildcard rs module

/-- The package-level mutable state relevant to reloading: the parsed rules
plus the `isInitialized` latch. -/
structure DebugState where
  rules : RuleSet
  isInitialized : Bool

/-- parseDebugEnv acting on the package state: a no-op when `isInitialized`
is already set, otherwise parse the environment value and set the latch. -/
def parseDebugEnvSt (env : GoStr) (st : DebugState) : DebugState :=
  if st.isInitialized then st
  else { rules := parseDebugEnv env, isInitialized := true }

/-- ReloadDebugSettings: clear the `isInitialized` latch, then run
`parseDebugEnv` again. -/
def ReloadDebugSettings (env : GoStr) (st : DebugState) : DebugState :=
  parseDebugEnvSt env { st with isInitialized := false }

/-- IsEnabled: read the current state and evaluate `checkEnabled`. -/
def IsEnabled (st : DebugState) (module : GoStr) : Bool :=
  checkEnabled st.rules module

/-- strings.Contains: `sub` occurs as a contiguous substring of `s` (an
occurrence starting at some position; the empty string occurs everywhere). -/
def goContains : GoStr → GoStr → Bool
  | [], sub => sub = []
  | c :: rest, sub => (c :: rest).take sub.length = sub || goContains rest sub

/-- PrefixWriter from debug.go: a prefix label and an optional (possibly nil)
list of phrases to suppress. -/
structure PrefixWriter where
  Prefix : GoStr
  Ignores : Option (List GoStr)

/-- The observable outcome of one `Write` call: the returned byte count, the
returned error, and the text written to stderr (`none` when suppressed). -/
structure WriteResult where
  n : Nat
  err : Option GoStr
  written : Option GoStr
  deriving DecidableEq

/-- PrefixWriter.Write: if `Ignores` is non-nil and some ignored phrase occurs
in the text, suppress the output; either way report `(len(p), nil)`. -/
def PrefixWriter.Write (pw : PrefixWriter) (p : GoStr) : WriteResult :=
  let text := p
  let suppressed :=
    match pw.Ignores with
    | some igs => igs.any fun ignore => goContains text ignore
    | none => false
  if suppressed then { n := p.length, err := none, written := none }
  else { n := p.length, err := none, written := some (pw.Prefix ++ [' '] ++ text) }

/-- The trimmed, non-empty tokens of a specification string (spec §4.1 step 1:
split on `,`, trim surrounding whitespace, discard empty tokens). -/
def tokensOf (s : GoStr) : List GoStr :=
  ((s.splitOn ',').map trimSpace).filter fun t => t ≠ []

/-- The spec's description of how one token updates the include-pattern map: a
`!`-token records its remainder with enabled=false, a bare `*` leaves the map
alone, and any other token is added exactly as written. Second definition
worded from the spec, to be compared with `parseDebugEnv`. -/
def specIncludeStep (m : GoStr → Bool) (t : GoStr) : GoStr → Bool :=
  if t.take 1 = ['!'] then setKey m (t.drop 1) false
  else if t = ['*'] then m
  else setKey m t true

/-- The rule set described by the spec's words for §4.1: the global wildcard is
set exactly when some token is `*`; the excludes are exactly the remainders of
the `!`-tokens; the include-pattern map is the fold of `specIncludeStep` over
the tokens. Second definition worded from the spec, to be compared with
`parseDebugEnv`. -/
def specParse (s : GoStr) : RuleSet :=
  { wildcardEnabled := (tokensOf s).any fun t => t = ['*']
    negatedModules := fun c => (tokensOf s).any fun t => t = '!' :: c
    debugNamespaces := (tokensOf s).foldl specIncludeStep fun _ => false }

/-! ### General lemmas about the matcher -/

theorem checkEnabled_of_negated {rs : RuleSet} {c : GoStr} (h : isNegated rs c = true) :
    checkEnabled rs c = false := by
  simp [checkEnabled, h]

theorem isNegated_of_direct {rs : RuleSet} {c : GoStr} (h : rs.negatedModules c = true) :
    isNegated rs c = true := by
  simp [isNegated, h]

theorem isNegated_of_entry {rs : RuleSet} {c : GoStr} (i : Nat)
    (hi : i < (c.splitOn ':').length)
    (h : rs.negatedModules (joinTake (c.splitOn ':') (i + 1)) = true ∨
         rs.negatedModules (joinTake (c.splitOn ':') (i + 1) ++ ['*']) = true ∨
         rs.negatedModules (joinTake (c.splitOn ':') (i + 1) ++ [':', '*']) = true) :
    isNegated rs c = true := by
  simp only [isNegated, Bool.or_eq_true, List.any_eq_true, List.mem_range]
  right
  exact ⟨i, hi, by rcases h with h | h | h <;> simp [h]⟩

theorem isNegated_of_no_negations {rs : RuleSet} (h : ∀ x, rs.negatedModules x = false)
    (c : GoStr) : isNegated rs c = false := by
  simp [isNegated, h]

theorem isEnabledByWildcard_of_no_includes {rs : RuleSet}
    (h : ∀ x, rs.debugNamespaces x = false) (c : GoStr) :
    isEnabledByWildcard rs c = false := by
  simp [isEnabledByWildcard, h]

theorem splitOn_colon_append {a : GoStr} (b : GoStr) (ha : ':' ∉ a) :
    (a ++ ':' :: b).splitOn ':' = a :: b.splitOn ':' := by
  have h : ∀ x ∈ a, ¬((x == ':') = true) := by
    intro x hx hbeq
    exact ha ((beq_iff_eq.mp hbeq) ▸ hx)
  simpa [List.splitOn] using List.splitOnP_first _ _ h ':' (by simp) b

/-! ### Claim theorems -/

/-- C1: for every channel `c` and every rule set, if `c` matches an exclude
rule — an exact `negatedModules` entry for `c`, or an entry formed by some
colon-prefix of `c` concatenated with `*` or with `:*` — then `checkEnabled`
returns `false`, regardless of the global wildcard flag and of the contents of
`debugNamespaces` (so a pattern present in both maps is excluded); evaluation
checks negation first and returns `false` immediately. -/
theorem exclude_match_forces_disabled (rs : RuleSet) (c : GoStr)
    (h : rs.negatedModules c = true ∨
      ∃ i < (c.splitOn ':').length,
        rs.negatedModules (joinTake (c.splitOn ':') (i + 1) ++ ['*']) = true ∨
        rs.negatedModules (joinTake (c.splitOn ':') (i + 1) ++ [':', '*']) = true) :
    checkEnabled rs c = false := by
  apply checkEnabled_of_negated
  rcases h with h | ⟨i, hi, h⟩
  · exact isNegated_of_direct h
  · exact isNegated_of_entry i hi (Or.inr h)

theorem exclude_match_forces_disabled_witness :
    ((parseDebugEnv (gs "*,app,!app")).negatedModules (gs "app") = true ∨
      ∃ i < ((gs "app").splitOn ':').length,
        (parseDebugEnv (gs "*,app,!app")).negatedModules
          (joinTake ((gs "app").splitOn ':') (i + 1) ++ ['*']) = true ∨
        (parseDebugEnv (gs "*,app,!app")).negatedModules
          (joinTake ((gs "app").splitOn ':') (i + 1) ++ [':', '*']) = true) ∧
    checkEnabled (parseDebugEnv (gs "*,app,!app")) (gs "app") = false :=
  ⟨Or.inl (by decide),
   exclude_match_forces_disabled (parseDebugEnv (gs "*,app,!app")) (gs "app")
     (Or.inl (by decide))⟩

/-- C3: for the specification `app:*,!app:server`, the channel `app:client` is
enabled, while `app:server` and every descendant of `app:server` (in
particular `app:server:http`) are disabled. -/
theorem negation_scoping_example :
    checkEnabled (parseDebugEnv (gs "app:*,!app:server")) (gs "app:client") = true ∧
    checkEnabled (parseDebugEnv (gs "app:*,!app:server")) (gs "app:server") = false ∧
    checkEnabled (parseDebugEnv (gs "app:*,!app:server")) (gs "app:server:http") = false ∧
    ∀ rest : GoStr,
      checkEnabled (parseDebugEnv (gs "app:*,!app:server")) (gs "app:server" ++ ':' :: rest) =
        false := by
  refine ⟨by decide, by decide, by decide, fun rest => ?_⟩
  apply checkEnabled_of_negated
  have h1 : gs "app:server" ++ ':' :: rest = gs "app" ++ ':' :: (gs "server" ++ ':' :: rest) :=
    rfl
  have hsplit : (gs "app:server" ++ ':' :: rest).splitOn ':' =
      gs "app" :: gs "server" :: rest.splitOn ':' := by
    rw [h1, splitOn_colon_append _ (by decide), splitOn_colon_append _ (by decide)]
  apply isNegated_of_entry 1
  · rw [hsplit]
    simp only [List.length_cons]
    omega
  · left
    rw [hsplit]
    have hj : joinTake (gs "app" :: gs "server" :: rest.splitOn ':') 2 = gs "app:server" := rfl
    rw [hj]
    decide

/-- C6: if the global wildcard flag is set and the channel is not negated,
`checkEnabled` returns `true`; and parsing the specification `*` sets the
global wildcard and negates nothing, so under that specification every channel
is enabled. -/
theorem global_wildcard_enables :
    (∀ (rs : RuleSet) (c : GoStr),
      rs.wildcardEnabled = true → isNegated rs c = false → checkEnabled rs c = true) ∧
    (parseDebugEnv (gs "*")).wildcardEnabled = true ∧
    ∀ c : GoStr, isNegated (parseDebugEnv (gs "*")) c = false := by
  refine ⟨fun rs c hw hn => by simp [checkEnabled, hw, hn], by decide, fun c => ?_⟩
  exact isNegated_of_no_negations (fun x => rfl) c

theorem global_wildcard_enables_witness :
    ((parseDebugEnv (gs "*")).wildcardEnabled = true ∧
      isNegated (parseDebugEnv (gs "*")) (gs "anything:else") = false) ∧
    checkEnabled (parseDebugEnv (gs "*")) (gs "anything:else") = true :=
  ⟨⟨by decide, by decide⟩,
   global_wildcard_enables.1 (parseDebugEnv (gs "*")) (gs "anything:else")
     (by decide) (by decide)⟩

/-- C7: the empty specification parses to the empty rule set, and under it
every channel is disabled; no error is possible. -/
theorem empty_spec_disables_everything :
    parseDebugEnv (gs "") = emptyRules ∧
    ∀ c : GoStr, checkEnabled (parseDebugEnv (gs "")) c = false := by
  refine ⟨rfl, fun c => ?_⟩
  have hn : isNegated (parseDebugEnv (gs "")) c = false :=
    isNegated_of_no_negations (fun x => rfl) c
  have hw : isEnabledByWildcard (parseDebugEnv (gs "")) c = false :=
    isEnabledByWildcard_of_no_includes (fun x => rfl) c
  simp [checkEnabled, hn, hw]
  exact ⟨rfl, rfl⟩

/-- C8: reloading twice with the same specification string yields a state that
matches every channel identically to a single reload (in fact the two states
are definitionally the same: the second pass re-parses the same value). -/
theorem reload_idempotent_matching (env : GoStr) (st : DebugState) (c : GoStr) :
    IsEnabled (ReloadDebugSettings env (ReloadDebugSettings env st)) c =
      IsEnabled (ReloadDebugSettings env st) c := rfl

/-- C10: `PrefixWriter.Write` reports `(len(p), nil)` for every input, both
when it emits the prefixed text and when it suppresses the input because an
`Ignores` phrase occurs in it, so the return values never distinguish the two
cases. -/
theorem write_always_reports_full_success (pw : PrefixWriter) (p : GoStr) :
    (pw.Write p).n = p.length ∧ (pw.Write p).err = none := by
  unfold PrefixWriter.Write
  split
  · dsimp only
    split <;> exact ⟨rfl, rfl⟩
  · exact ⟨rfl, rfl⟩

/-- C2 counterexample: under the specification `!app`, the channel
`app:server` is negated by the code even though `excludes` contains neither
the exact string `app:server` nor any prefix concatenated with `*` or `:*` —
refuting the claimed characterisation and, with the specification
`app:*,!app`, the claim that a bare exclude entry `app` does not negate the
strictly deeper channel `app:server`. -/
theorem bare_exclude_negates_descendant_cex :
    isNegated (parseDebugEnv (gs "!app")) (gs "app:server") = true ∧
    (parseDebugEnv (gs "!app")).negatedModules (gs "app:server") = false ∧
    (parseDebugEnv (gs "!app")).negatedModules (gs "app*") = false ∧
    (parseDebugEnv (gs "!app")).negatedModules (gs "app:*") = false ∧
    (parseDebugEnv (gs "!app")).negatedModules (gs "app:server*") = false ∧
    (parseDebugEnv (gs "!app")).negatedModules (gs "app:server:*") = false ∧
    checkEnabled (parseDebugEnv (gs "app:*,!app")) (gs "app:server") = false := by
  decide

/-- C2 amended: a channel `c` with segments `c1:...:cn` is negated if and only
if `excludes` contains the exact string `c`, or, for some prefix `c1:...:ci`
(1 ≤ i ≤ n), the bare prefix itself, the prefix concatenated with `*`, or the
prefix concatenated with `:*`; in particular an exclude entry that is exactly
`app` negates `app` and every strictly deeper channel such as `app:server`. -/
theorem isNegated_characterization :
    (∀ (rs : RuleSet) (c : GoStr),
      isNegated rs c = true ↔
        rs.negatedModules c = true ∨
        ∃ i < (c.splitOn ':').length,
          rs.negatedModules (joinTake (c.splitOn ':') (i + 1)) = true ∨
          rs.negatedModules (joinTake (c.splitOn ':') (i + 1) ++ ['*']) = true ∨
          rs.negatedModules (joinTake (c.splitOn ':') (i + 1) ++ [':', '*']) = true) ∧
    ∀ rest : GoStr,
      isNegated (parseDebugEnv (gs "!app")) (gs "app" ++ ':' :: rest) = true := by
  constructor
  · intro rs c
    constructor
    · intro h
      simp only [isNegated, Bool.or_eq_true, List.any_eq_true, List.mem_range] at h
      rcases h with h | ⟨i, hi, h⟩
      · exact Or.inl h
      · refine Or.inr ⟨i, hi, ?_⟩
        simpa [Bool.or_eq_true, or_assoc] using h
    · intro h
      rcases h with h | ⟨i, hi, h⟩
      · exact isNegated_of_direct h
      · exact isNegated_of_entry i hi h
  · intro rest
    have hsplit : (gs "app" ++ ':' :: rest).splitOn ':' = gs "app" :: rest.splitOn ':' :=
      splitOn_colon_append _ (by decide)
    apply isNegated_of_entry 0
    · rw [hsplit]
      simp
    · left
      rw [hsplit]
      have hj : joinTake (gs "app" :: rest.splitOn ':') 1 = gs "app" := rfl
      rw [hj]
      decide

/-- C4: a wildcard include entry `p:*` or `p*` enables every non-negated
channel having `p` as a strict colon-prefix; the bare specification `app:*`
(or `app*`) does not enable the exact channel `app`; and a channel without a
colon can never be enabled by the wildcard-prefix search. -/
theorem wildcard_include_strict_prefix :
    (∀ (rs : RuleSet) (p c : GoStr) (i : Nat),
      i + 1 < (c.splitOn ':').length →
      p = joinTake (c.splitOn ':') (i + 1) →
      (rs.debugNamespaces (p ++ [':', '*']) = true ∨ rs.debugNamespaces (p ++ ['*']) = true) →
      isNegated rs c = false →
      checkEnabled rs c = true) ∧
    (checkEnabled (parseDebugEnv (gs "app:*")) (gs "app") = false ∧
      checkEnabled (parseDebugEnv (gs "app*")) (gs "app") = false) ∧
    ∀ (rs : RuleSet) (c : GoStr), ':' ∉ c → isEnabledByWildcard rs c = false := by
  refine ⟨?_, ⟨by decide, by decide⟩, ?_⟩
  · intro rs p c i hi hp hinc hneg
    have hw : isEnabledByWildcard rs c = true := by
      simp only [isEnabledByWildcard, List.any_eq_true, List.mem_range]
      refine ⟨i, by omega, ?_⟩
      rcases hinc with h | h <;> simp [hp ▸ h]
    cases hwild : rs.wildcardEnabled <;> cases hdn : rs.debugNamespaces c <;>
      simp [checkEnabled, hneg, hwild, hdn, hw]
  · intro rs c hc
    have hone : c.splitOn ':' = [c] := by
      simp only [List.splitOn]
      refine List.splitOnP_eq_single _ _ ?_
      intro x hx hbeq
      exact hc ((beq_iff_eq.mp hbeq) ▸ hx)
    simp [isEnabledByWildcard, hone]

theorem wildcard_include_strict_prefix_witness :
    (0 + 1 < ((gs "app:server:http").splitOn ':').length ∧
      gs "app" = joinTake ((gs "app:server:http").splitOn ':') (0 + 1) ∧
      (parseDebugEnv (gs "app:*")).debugNamespaces (gs "app" ++ [':', '*']) = true ∧
      isNegated (parseDebugEnv (gs "app:*")) (gs "app:server:http") = false) ∧
    checkEnabled (parseDebugEnv (gs "app:*")) (gs "app:server:http") = true :=
  ⟨⟨by decide, by decide, by decide, by decide⟩,
   wildcard_include_strict_prefix.1 (parseDebugEnv (gs "app:*")) (gs "app")
     (gs "app:server:http") 0 (by decide) (by decide) (Or.inl (by decide)) (by decide)⟩

/-! ### Lemmas relating the parser to its spec-worded description -/

theorem parseTokens_eq_fold (toks : List GoStr) (rs : RuleSet) :
    parseTokens toks rs =
      ((toks.map trimSpace).filter fun t => t ≠ []).foldl applyToken rs := by
  induction toks generalizing rs with
  | nil => rfl
  | cons t ts ih =>
    by_cases h : trimSpace t = []
    · simpa [parseTokens, List.foldl_cons, List.filter_cons, h] using ih rs
    · simpa [parseTokens, List.foldl_cons, List.filter_cons, h] using
        ih (applyToken rs (trimSpace t))

theorem applyToken_wildcard (rs : RuleSet) (t : GoStr) :
    (applyToken rs t).wildcardEnabled = (rs.wildcardEnabled || decide (t = ['*'])) := by
  unfold applyToken
  split_ifs with h1 h2
  · have hne : t ≠ ['*'] := by
      intro he
      rw [he] at h1
      exact absurd h1 (by decide)
    simp [hne]
  · simp [h2]
  · simp [h2]

theorem applyToken_negated (rs : RuleSet) (t : GoStr) (c : GoStr) :
    (applyToken rs t).negatedModules c = (rs.negatedModules c || decide (t = '!' :: c)) := by
  unfold applyToken
  split_ifs with h1 h2
  · obtain ⟨t', rfl⟩ : ∃ t', t = '!' :: t' := by
      cases t with
      | nil => exact absurd h1 (by decide)
      | cons a t' =>
        have : a = '!' := by simpa [List.take] using h1
        exact ⟨t', by rw [this]⟩
    by_cases hc : c = t'
    · simp [setKey, hc]
    · simp only [setKey, List.drop_succ_cons, List.drop_zero, if_neg hc]
      have hne : ('!' :: t') ≠ ('!' :: c) := by
        intro he
        exact hc (List.tail_eq_of_cons_eq he).symm
      simp [hne]
  · have hne : t ≠ '!' :: c := by
      rw [h2]
      intro he
      exact absurd (List.head_eq_of_cons_eq he) (by decide)
    simp [hne]
  · have hne : t ≠ '!' :: c := by
      intro he
      rw [he] at h1
      exact h1 rfl
    simp [hne]

theorem applyToken_namespaces (rs : RuleSet) (t : GoStr) :
    (applyToken rs t).debugNamespaces = specIncludeStep rs.debugNamespaces t := by
  unfold applyToken specIncludeStep
  split_ifs <;> rfl

theorem foldl_applyToken_wildcard (toks : List GoStr) (rs : RuleSet) :
    (toks.foldl applyToken rs).wildcardEnabled =
      (rs.wildcardEnabled || toks.any fun t => t = ['*']) := by
  induction toks generalizing rs with
  | nil => simp
  | cons t ts ih =>
    rw [List.foldl_cons, ih, applyToken_wildcard, List.any_cons, Bool.or_assoc]

theorem foldl_applyToken_negated (toks : List GoStr) (rs : RuleSet) (c : GoStr) :
    (toks.foldl applyToken rs).negatedModules c =
      (rs.negatedModules c || toks.any fun t => t = '!' :: c) := by
  induction toks generalizing rs with
  | nil => simp
  | cons t ts ih =>
    rw [List.foldl_cons, ih, applyToken_negated, List.any_cons, Bool.or_assoc]

theorem foldl_applyToken_namespaces (toks : List GoStr) (rs : RuleSet) :
    (toks.foldl applyToken rs).debugNamespaces =
      toks.foldl specIncludeStep rs.debugNamespaces := by
  induction toks generalizing rs with
  | nil => rfl
  | cons t ts ih =>
    rw [List.foldl_cons, List.foldl_cons, ih, applyToken_namespaces]

theorem parseDebugEnv_eq_fold (s : GoStr) (hs : s ≠ []) :
    parseDebugEnv s = (tokensOf s).foldl applyToken emptyRules := by
  unfold parseDebugEnv
  rw [if_neg hs, parseTokens_eq_fold]
  rfl

/-- C5: `parseDebugEnv` is total and behaves exactly as the spec describes the
parser: for every input string it yields the rule set of `specParse`, the
second definition worded from the spec (split on `,`, trim, drop empties; `*`
sets the global wildcard; a `!`-token's remainder goes to `excludes` and is
recorded with enabled=false in the include-pattern map; every other token is
added to the include map exactly as written). -/
theorem parse_matches_spec (s : GoStr) (c : GoStr) :
    (parseDebugEnv s).wildcardEnabled = (specParse s).wildcardEnabled ∧
    (parseDebugEnv s).negatedModules c = (specParse s).negatedModules c ∧
    (parseDebugEnv s).debugNamespaces c = (specParse s).debugNamespaces c := by
  by_cases hs : s = []
  · subst hs
    exact ⟨rfl, rfl, rfl⟩
  · rw [parseDebugEnv_eq_fold s hs]
    unfold specParse
    refine ⟨?_, ?_, ?_⟩
    · rw [foldl_applyToken_wildcard]
      simp [emptyRules]
    · rw [foldl_applyToken_negated]
      simp [emptyRules]
    · rw [foldl_applyToken_namespaces]
      rfl

end Debuggo
